import Mathlib

/-!
Shallow embedding of `scripts/generate_katex_spec_todos.py`: a generator that
scans a JavaScript spec file for `describe("..."` lines, filters out titles
already ported, converts the surviving titles into snake_case Rust function
identifiers (resolving collisions with `_N` suffixes), and emits a Rust source
document of ignored `#[test]` stubs.

The input file is modelled as its list of lines (`List String`); machine text
is `String`/`List Char`; the per-run duplicate counter is an explicit function
`String → Nat` threaded through the fold, mirroring `collections.Counter`.
-/

namespace KatexTodos

/-- ASCII alphanumeric test, the character class `[a-zA-Z0-9]` of the regex in
`snakeify` (Python regex character ranges are ASCII-literal here). -/
def isAsciiAlnum (c : Char) : Bool :=
  (65 ≤ c.toNat && c.toNat ≤ 90) || (97 ≤ c.toNat && c.toNat ≤ 122) ||
    (48 ≤ c.toNat && c.toNat ≤ 57)

/-- `re.sub(r"[\\\"']", " ", name)` applied characterwise: backslash (92),
double quote (34) and single quote (39) become a space. -/
def replQuotes (c : Char) : Char :=
  if c.toNat = 92 || c.toNat = 34 || c.toNat = 39 then ' ' else c

/-- `re.sub(r"[^a-zA-Z0-9]+", "_", clean)`: every maximal run of
non-alphanumeric characters becomes a single underscore.  The Boolean flag
records whether we are inside such a run. -/
def collapseAux : List Char → Bool → List Char
  | [], _ => []
  | c :: rest, inRun =>
    if isAsciiAlnum c then c :: collapseAux rest false
    else if inRun then collapseAux rest true
    else '_' :: collapseAux rest true

/-- Python `str.strip("_")`: drop underscores from both ends. -/
def stripUnderscores (l : List Char) : List Char :=
  (((l.dropWhile (fun c => c == '_')).reverse.dropWhile (fun c => c == '_'))).reverse

/-- Python `str.lower()` restricted to ASCII; at its use site the string
contains only `[A-Za-z0-9_]`, where Python's `lower` agrees with this. -/
def toLowerAscii (c : Char) : Char :=
  if 65 ≤ c.toNat && c.toNat ≤ 90 then Char.ofNat (c.toNat + 32) else c

/-- Python `str.isalpha()` restricted to ASCII; at its use site the string
contains only `[a-z0-9_]`, where Python's `isalpha` agrees with this. -/
def isAsciiAlpha (c : Char) : Bool :=
  (65 ≤ c.toNat && c.toNat ≤ 90) || (97 ≤ c.toNat && c.toNat ≤ 122)

/-- The body of `snakeify` on character lists. -/
def snakeifyData (l : List Char) : List Char :=
  let cleaned := (stripUnderscores (collapseAux (l.map replQuotes) false)).map toLowerAscii
  let cleaned := if cleaned = [] then "unknown".data else cleaned
  if cleaned.head?.all isAsciiAlpha then cleaned else "katex_".data ++ cleaned

/-- `snakeify`: turn a describe title into a Rust-friendly snake_case
identifier (`scripts/generate_katex_spec_todos.py:72`). -/
def snakeify (s : String) : String :=
  ⟨snakeifyData s.data⟩

/-- The `PORTED` set of the script: describe blocks already represented in
`aliter/src/spec.rs`.  (In Python this is a `set`; membership is exact string
equality, which `List.Mem` on `String` also is.) -/
def PORTED : List String :=
  [ "A parser",
    "An ord parser",
    "A bin parser",
    "A rel parser",
    "A mathinner parser",
    "A punct parser",
    "An open parser",
    "A close parser",
    "A \\\\KaTeX parser",
    "A subscript and superscript parser",
    "A subscript and superscript tree-builder",
    "A parser with limit controls",
    "A group parser",
    "A supsub left/right nucleus parser",
    "An over/underline parser",
    "A \\\\begingroup...\\\\endgroup parser",
    "An implicit group parser",
    "A function parser",
    "An over/brace/brack parser",
    "A genfrac builder",
    "A infix builder",
    "A text parser",
    "A phantom parser",
    "A color parser",
    "A kern parser",
    "A rule parser",
    "A text-mode switch parser",
    "An overbrace underbrace parser",
    "A text font parser",
    "A math font parser",
    "A spacing parser",
    "A text color parser",
    "A delimiter sizing parser",
    "A sqrt parser",
    "A binom parser",
    "A frac parser",
    "A left/right parser",
    "A matrix parser",
    "A phantom sizing parser",
    "A rule color parser",
    "An accent parser",
    "A sizing parser",
    "An arrow parser",
    "A href parser" ]

/-- `re.match(r'describe\("([^"]+)', line)`: the line must begin with the
ten literal characters `describe("`; the capture group is the maximal run of
non-double-quote characters after them and must be non-empty. -/
def extractTitle (line : String) : Option String :=
  if line.data.take 10 = "describe(\"".data then
    let t := (line.data.drop 10).takeWhile (fun c => !(c == '"'))
    if t = [] then none else some ⟨t⟩
  else none

/-- The extraction-plus-filter loop of `main` (lines 88–94): scan the lines,
numbered from `n` (the real call starts at 1, as `enumerate(contents, 1)`),
keeping `(title, lineno)` for each match whose title is not in `PORTED`. -/
def scanFrom : Nat → List String → List (String × Nat)
  | _, [] => []
  | n, line :: rest =>
    match extractTitle line with
    | some t => if t ∈ PORTED then scanFrom (n + 1) rest else (t, n) :: scanFrom (n + 1) rest
    | none => scanFrom (n + 1) rest

/-- The `describes` list of `main`. -/
def describes (input : List String) : List (String × Nat) :=
  scanFrom 1 input

/-- The Extractor stage alone (spec §4.1: RawEntry sequence), without the
Ported Filter, used to state filter correctness. -/
def rawScanFrom : Nat → List String → List (String × Nat)
  | _, [] => []
  | n, line :: rest =>
    match extractTitle line with
    | some t => (t, n) :: rawScanFrom (n + 1) rest
    | none => rawScanFrom (n + 1) rest

/-- A generated stub: original title, source line number, function name. -/
structure Stub where
  title : String
  lineno : Nat
  fn : String
deriving DecidableEq

/-- The collision-suffix rendering: the Python code replaces `fn` by
`f"{fn}_{seen[fn]}"` exactly when the updated count exceeds 1. -/
def render (b : String) (n : Nat) : String :=
  if 1 < n then b ++ "_" ++ Nat.repr n else b

/-- The stub-building loop of `main` (lines 96–109): `seen` is the
`collections.Counter`, threaded explicitly. -/
def assignIds : List (String × Nat) → (String → Nat) → List Stub
  | [], _ => []
  | (t, ln) :: rest, seen =>
    let fn := snakeify t
    let n := seen fn + 1
    ⟨t, ln, render fn n⟩ :: assignIds rest (fun s => if s = fn then n else seen s)

/-- The `stubs` list of `main`, with a fresh counter. -/
def stubs (input : List String) : List Stub :=
  assignIds (describes input) (fun _ => 0)

/-- The fixed header lines of the emitted document (lines 112–118). -/
def headerLines : List String :=
  [ "//! Auto-generated placeholders for unported katex-spec.js suites.",
    "//! Regenerate via `python aliter/scripts/generate_katex_spec_todos.py`.",
    "",
    "#![allow(clippy::needless_doctest_main)]",
    "",
    "use aliter::*;",
    "" ]

/-- The traceability comment emitted inside each function body (line 123). -/
def commentLine (title : String) (lineno : Nat) : String :=
  "    // TODO: port \"" ++ title ++ "\" from katex-spec.js:" ++ Nat.repr lineno

/-- One emitted function block (lines 119–126), blank separator included. -/
def blockLines (s : Stub) : List String :=
  [ "#[test]",
    "#[ignore]",
    "fn " ++ s.fn ++ "() \x7b",
    commentLine s.title s.lineno,
    "    todo!(\"unported katex-spec.js suite\");",
    "\x7d",
    "" ]

/-- All lines of the generated document, in emission order. -/
def genLines (input : List String) : List String :=
  headerLines ++ (stubs input).flatMap blockLines

/-- `print("\n".join(out))`: the emitted document (the final newline added by
`print` included). -/
def output (input : List String) : String :=
  String.intercalate "\n" (genLines input) ++ "\n"

/-- `main` including the fallible read of the spec file: the very first
statement is `SPEC.read_text(...)`; an exception there propagates and nothing
is printed. -/
def runWith (readResult : Except String (List String)) : Except String String :=
  match readResult with
  | .error e => .error e
  | .ok lines => .ok (output lines)

/-- Decimal value of a digit string (retraction of `Nat.repr`). -/
def decVal (l : List Char) : Nat :=
  l.foldl (fun a c => 10 * a + (c.toNat - 48)) 0

/-- The digit test separating the `_N` suffix from the base. -/
def isDigitCode (c : Char) : Bool := 48 ≤ c.toNat && c.toNat ≤ 57

/-- A character allowed after the first position of `^[a-z][a-z0-9_]*$`. -/
def validChar (c : Char) : Bool :=
  (97 ≤ c.toNat && c.toNat ≤ 122) || (48 ≤ c.toNat && c.toNat ≤ 57) || c.toNat = 95

/-- The regular expression `^[a-z][a-z0-9_]*$` as a Boolean predicate. -/
def validIdentData : List Char → Bool
  | [] => false
  | c :: rest => (97 ≤ c.toNat && c.toNat ≤ 122) && rest.all validChar

/-- `validIdentData` on strings. -/
def validIdent (s : String) : Bool := validIdentData s.data

/-- The list of base identifiers (before collision suffixing) of a run. -/
def basesOf (input : List String) : List String :=
  (describes input).map (fun e => snakeify e.1)

/-- Scenario C input: two surviving titles both normalising to `foo`. -/
def collideTwo : List String :=
  ["describe(\"foo\", function() ", "describe(\"foo\", function() "]

/-- An input witnessing that suffixed identifiers can collide with a base
identifier that already looks suffixed: bases are `foo_2`, `foo`, `foo`. -/
def collideBad : List String :=
  ["describe(\"foo 2\", function() ", "describe(\"foo\", function() ",
    "describe(\"foo\", function() "]

/-- Scenario B input: 41 filler lines, then the weird title at line 42. -/
def scenarioB : List String :=
  List.replicate 41 "// filler" ++ ["describe(\"A weird, Title!\", ...)"]

/-! ### Decimal rendering (`Nat.repr`) facts

Python's f-string formats the counter in decimal; the embedding uses
`Nat.repr`.  We prove injectivity via the evaluation retraction `decVal`, and
that every character of a rendered number is an ASCII digit. -/

theorem digitChar_toNat : ∀ m : Nat, m < 10 → (Nat.digitChar m).toNat = 48 + m := by
  decide

theorem toDigitsCore_append (fuel : Nat) : ∀ (n : Nat) (acc : List Char),
    Nat.toDigitsCore 10 fuel n acc = Nat.toDigitsCore 10 fuel n [] ++ acc := by
  induction fuel with
  | zero => intro n acc; simp [Nat.toDigitsCore]
  | succ f ih =>
    intro n acc
    simp only [Nat.toDigitsCore]
    by_cases h : n / 10 = 0
    · simp [h]
    · simp only [h, if_false]
      rw [ih (n / 10) (Nat.digitChar (n % 10) :: acc), ih (n / 10) [Nat.digitChar (n % 10)]]
      simp

theorem decVal_toDigitsCore : ∀ (fuel n : Nat), n < fuel →
    decVal (Nat.toDigitsCore 10 fuel n []) = n := by
  intro fuel
  induction fuel with
  | zero => intro n h; exact absurd h (Nat.not_lt_zero n)
  | succ f ih =>
    intro n h
    simp only [Nat.toDigitsCore]
    by_cases h0 : n / 10 = 0
    · have hn : n < 10 := by omega
      simp only [h0, if_pos]
      simp [decVal, digitChar_toNat (n % 10) (Nat.mod_lt _ (by norm_num))]
      omega
    · rw [if_neg h0, toDigitsCore_append]
      have h1 : n / 10 < f := by
        have h2 : 0 < n := by
          rcases Nat.eq_zero_or_pos n with h3 | h3
          · exact absurd (by simp [h3]) h0
          · exact h3
        have := Nat.div_lt_self h2 (by norm_num : (1 : Nat) < 10)
        omega
      have hrec := ih (n / 10) h1
      simp only [decVal, List.foldl_append] at hrec ⊢
      rw [hrec]
      simp [digitChar_toNat (n % 10) (Nat.mod_lt _ (by norm_num))]
      omega

theorem decVal_repr (n : Nat) : decVal (Nat.repr n).data = n := by
  have h : (Nat.repr n).data = Nat.toDigits 10 n := rfl
  rw [h]
  exact decVal_toDigitsCore (n + 1) n (Nat.lt_succ_self n)

theorem repr_inj {m n : Nat} (h : Nat.repr m = Nat.repr n) : m = n := by
  have := congrArg (fun s => decVal s.data) h
  simpa [decVal_repr] using this

theorem toDigitsCore_digits : ∀ (fuel n : Nat) (acc : List Char),
    (∀ c ∈ acc, 48 ≤ c.toNat ∧ c.toNat ≤ 57) →
    ∀ c ∈ Nat.toDigitsCore 10 fuel n acc, 48 ≤ c.toNat ∧ c.toNat ≤ 57 := by
  intro fuel
  induction fuel with
  | zero => intro n acc hacc; simpa [Nat.toDigitsCore] using hacc
  | succ f ih =>
    intro n acc hacc
    have hd : 48 ≤ (Nat.digitChar (n % 10)).toNat ∧ (Nat.digitChar (n % 10)).toNat ≤ 57 := by
      have := digitChar_toNat (n % 10) (Nat.mod_lt _ (by norm_num))
      omega
    simp only [Nat.toDigitsCore]
    by_cases h : n / 10 = 0
    · simp only [h, if_pos]
      intro c hc
      rcases List.mem_cons.mp hc with h1 | h1
      · subst h1; exact hd
      · exact hacc c h1
    · rw [if_neg h]
      apply ih
      intro c hc
      rcases List.mem_cons.mp hc with h1 | h1
      · subst h1; exact hd
      · exact hacc c h1

theorem repr_digits (n : Nat) : ∀ c ∈ (Nat.repr n).data, 48 ≤ c.toNat ∧ c.toNat ≤ 57 := by
  have h : (Nat.repr n).data = Nat.toDigits 10 n := rfl
  rw [h]
  exact toDigitsCore_digits (n + 1) n [] (by simp)

/-! ### takeWhile/dropWhile decompositions -/

theorem takeWhile_all {α : Type} (p : α → Bool) : ∀ (l : List α),
    (∀ c ∈ l, p c = true) → l.takeWhile p = l := by
  intro l h
  induction l with
  | nil => rfl
  | cons x xs ih =>
    have h1 : p x = true := h x (List.mem_cons_self x xs)
    have h2 := ih (fun c hc => h c (List.mem_cons_of_mem x hc))
    simp [List.takeWhile_cons, h1, h2]

theorem takeWhile_append_cons {α : Type} (p : α → Bool) :
    ∀ (l₁ : List α) (x : α) (l₂ : List α),
    (∀ c ∈ l₁, p c = true) → p x = false →
    (l₁ ++ x :: l₂).takeWhile p = l₁ := by
  intro l₁
  induction l₁ with
  | nil => intro x l₂ _ hx; simp [List.takeWhile_cons, hx]
  | cons y ys ih =>
    intro x l₂ hall hx
    have h1 : p y = true := hall y (List.mem_cons_self y ys)
    have h2 := ih x l₂ (fun c hc => hall c (List.mem_cons_of_mem y hc)) hx
    simp [List.takeWhile_cons, h1, h2]

theorem dropWhile_append_cons {α : Type} (p : α → Bool) :
    ∀ (l₁ : List α) (x : α) (l₂ : List α),
    (∀ c ∈ l₁, p c = true) → p x = false →
    (l₁ ++ x :: l₂).dropWhile p = x :: l₂ := by
  intro l₁
  induction l₁ with
  | nil => intro x l₂ _ hx; simp [List.dropWhile_cons, hx]
  | cons y ys ih =>
    intro x l₂ hall hx
    have h1 : p y = true := hall y (List.mem_cons_self y ys)
    have h2 := ih x l₂ (fun c hc => hall c (List.mem_cons_of_mem y hc)) hx
    simp [List.dropWhile_cons, h1, h2]

/-- Two suffixed identifiers coincide only if base and count coincide. -/
theorem append_repr_inj {b c : String} {j k : Nat}
    (h : b ++ "_" ++ Nat.repr j = c ++ "_" ++ Nat.repr k) : b = c ∧ j = k := by
  have hdata : b.data ++ '_' :: (Nat.repr j).data = c.data ++ '_' :: (Nat.repr k).data := by
    have := congrArg String.data h
    simpa [String.data_append] using this
  have hrev : (Nat.repr j).data.reverse ++ '_' :: b.data.reverse
      = (Nat.repr k).data.reverse ++ '_' :: c.data.reverse := by
    have := congrArg List.reverse hdata
    simpa [List.reverse_append] using this
  have hu : isDigitCode '_' = false := by decide
  have hj : ∀ x ∈ (Nat.repr j).data.reverse, isDigitCode x = true := by
    intro x hx
    have := repr_digits j x (List.mem_reverse.mp hx)
    simp [isDigitCode]; omega
  have hk : ∀ x ∈ (Nat.repr k).data.reverse, isDigitCode x = true := by
    intro x hx
    have := repr_digits k x (List.mem_reverse.mp hx)
    simp [isDigitCode]; omega
  have htake : (Nat.repr j).data.reverse = (Nat.repr k).data.reverse := by
    have t1 := takeWhile_append_cons isDigitCode (Nat.repr j).data.reverse '_' b.data.reverse hj hu
    have t2 := takeWhile_append_cons isDigitCode (Nat.repr k).data.reverse '_' c.data.reverse hk hu
    rw [← t1, ← t2, hrev]
  have hdrop : b.data.reverse = c.data.reverse := by
    have t1 := dropWhile_append_cons isDigitCode (Nat.repr j).data.reverse '_' b.data.reverse hj hu
    have t2 := dropWhile_append_cons isDigitCode (Nat.repr k).data.reverse '_' c.data.reverse hk hu
    have h3 : ('_' :: b.data.reverse) = ('_' :: c.data.reverse) := by rw [← t1, ← t2, hrev]
    exact (List.cons.inj h3).2
  exact ⟨String.ext (List.reverse_injective hdrop),
    repr_inj (String.ext (List.reverse_injective htake))⟩

/-! ### Characterisation of the stub-building loop -/

theorem assignIds_length : ∀ (l : List (String × Nat)) (seen : String → Nat),
    (assignIds l seen).length = l.length := by
  intro l
  induction l with
  | nil => intro seen; rfl
  | cons e rest ih =>
    intro seen
    obtain ⟨t, ln⟩ := e
    simp [assignIds, ih]

theorem assignIds_map : ∀ (l : List (String × Nat)) (seen : String → Nat),
    (assignIds l seen).map (fun s => (s.title, s.lineno)) = l := by
  intro l
  induction l with
  | nil => intro seen; rfl
  | cons e rest ih =>
    intro seen
    obtain ⟨t, ln⟩ := e
    simp [assignIds, ih]

theorem assignIds_getElem : ∀ (l : List (String × Nat)) (seen : String → Nat) (i : Nat)
    (hi : i < l.length) (hi2 : i < (assignIds l seen).length),
    (assignIds l seen)[i] =
      { title := (l[i]).1, lineno := (l[i]).2,
        fn := render (snakeify (l[i]).1)
          (seen (snakeify (l[i]).1) +
            (l.take (i + 1)).countP (fun e => snakeify e.1 == snakeify (l[i]).1)) } := by
  intro l
  induction l with
  | nil => intro seen i hi _; exact absurd hi (Nat.not_lt_zero i)
  | cons e rest ih =>
    intro seen i hi hi2
    obtain ⟨t, ln⟩ := e
    cases i with
    | zero =>
      simp [assignIds, List.take_succ_cons, List.countP_cons]
    | succ j =>
      have hj : j < rest.length := by
        simp only [List.length_cons] at hi
        omega
      have hj2 : j < (assignIds rest (fun s => if s = snakeify t then seen (snakeify t) + 1 else seen s)).length := by
        rw [assignIds_length]; exact hj
      simp only [assignIds, List.getElem_cons_succ]
      rw [ih _ j hj hj2]
      simp only [List.take_succ_cons, List.countP_cons]
      congr 1
      by_cases hc : snakeify t = snakeify (rest[j]).1
      · rw [if_pos hc.symm, hc]
        simp only [beq_self_eq_true, if_true]
        congr 1
        omega
      · have hb : (snakeify t == snakeify (rest[j]).1) = false := by
          simpa using hc
        rw [if_neg (fun h => hc h.symm)]
        simp only [hb, Bool.false_eq_true, if_false]
        congr 1

theorem countP_take_self {α : Type} (l : List α) (i : Nat) (hi : i < l.length)
    (p : α → Bool) (hp : p l[i] = true) : 1 ≤ (l.take (i + 1)).countP p := by
  have hlen : i < (l.take (i + 1)).length := by
    simp [List.length_take]; omega
  have hmem : l[i] ∈ l.take (i + 1) := by
    have hg : (l.take (i + 1))[i] = l[i] := List.getElem_take l
    rw [← hg]
    exact List.getElem_mem hlen
  exact List.countP_pos_iff.mpr ⟨l[i], hmem, hp⟩

theorem countP_take_strict {α : Type} (l : List α) (i j : Nat) (hij : i < j)
    (hj : j < l.length) (p : α → Bool) (hp : p l[j] = true) :
    (l.take (i + 1)).countP p < (l.take (j + 1)).countP p := by
  have hmin : min (i + 1) (j + 1) = i + 1 := by omega
  have hsplit : l.take (j + 1) = l.take (i + 1) ++ (l.take (j + 1)).drop (i + 1) := by
    conv_lhs => rw [← List.take_append_drop (i + 1) (l.take (j + 1))]
    rw [List.take_take, hmin]
  have hlen : j - (i + 1) < ((l.take (j + 1)).drop (i + 1)).length := by
    simp [List.length_drop, List.length_take]; omega
  have hguard : i + 1 + (j - (i + 1)) < (l.take (j + 1)).length := by
    simp [List.length_take]; omega
  have hg : ((l.take (j + 1)).drop (i + 1))[j - (i + 1)] = l[j] := by
    rw [List.getElem_drop]
    have hidx : i + 1 + (j - (i + 1)) = j := by omega
    simp only [List.getElem_take]
    congr 1
  have h1 : 0 < ((l.take (j + 1)).drop (i + 1)).countP p := by
    apply List.countP_pos_iff.mpr
    refine ⟨l[j], ?_, hp⟩
    rw [← hg]
    exact List.getElem_mem hlen
  calc (l.take (i + 1)).countP p < (l.take (i + 1)).countP p + ((l.take (j + 1)).drop (i + 1)).countP p := by omega
    _ = (l.take (j + 1)).countP p := by rw [← List.countP_append, ← hsplit]

/-! ### Identifier validity -/

theorem toNat_ofNat_valid (n : Nat) (h : n < 55296) : (Char.ofNat n).toNat = n := by
  have hv : n.isValidChar := Or.inl h
  simp [Char.ofNat, Char.toNat, hv, Char.ofNatAux, UInt32.toNat, BitVec.toNat_ofNatLt]

theorem toNat_toLowerAscii (c : Char) :
    (toLowerAscii c).toNat = if 65 ≤ c.toNat ∧ c.toNat ≤ 90 then c.toNat + 32 else c.toNat := by
  by_cases h : 65 ≤ c.toNat ∧ c.toNat ≤ 90
  · rw [if_pos h]
    have hb : (65 ≤ c.toNat && c.toNat ≤ 90) = true := by
      simp only [Bool.and_eq_true, decide_eq_true_eq]; exact h
    unfold toLowerAscii
    rw [hb, if_pos rfl]
    exact toNat_ofNat_valid _ (by omega)
  · rw [if_neg h]
    have hb : (65 ≤ c.toNat && c.toNat ≤ 90) = false := by
      simp only [Bool.and_eq_false_iff, decide_eq_false_iff_not]
      omega
    unfold toLowerAscii
    rw [hb, if_neg (by simp : ¬(false = true))]

theorem collapseAux_chars : ∀ (l : List Char) (b : Bool) (c : Char),
    c ∈ collapseAux l b → isAsciiAlnum c = true ∨ c = '_' := by
  intro l
  induction l with
  | nil => intro b c hc; simp [collapseAux] at hc
  | cons x xs ih =>
    intro b c hc
    by_cases hx : isAsciiAlnum x = true
    · rw [collapseAux, if_pos hx] at hc
      rcases List.mem_cons.mp hc with h | h
      · subst h; exact Or.inl hx
      · exact ih false c h
    · rw [collapseAux, if_neg hx] at hc
      split at hc
      · exact ih true c hc
      · rcases List.mem_cons.mp hc with h | h
        · subst h; exact Or.inr rfl
        · exact ih true c h

theorem stripUnderscores_subset (l : List Char) (c : Char)
    (hc : c ∈ stripUnderscores l) : c ∈ l := by
  unfold stripUnderscores at hc
  rw [List.mem_reverse] at hc
  have h1 := List.Sublist.mem hc (List.dropWhile_sublist _)
  rw [List.mem_reverse] at h1
  exact List.Sublist.mem h1 (List.dropWhile_sublist _)

theorem dropWhile_head_false {α : Type} (p : α → Bool) : ∀ (l : List α) (c : α) (r : List α),
    l.dropWhile p = c :: r → p c = false := by
  intro l
  induction l with
  | nil => intro c r h; simp [List.dropWhile] at h
  | cons x xs ih =>
    intro c r h
    rw [List.dropWhile_cons] at h
    by_cases hx : p x = true
    · rw [if_pos hx] at h; exact ih c r h
    · rw [if_neg hx] at h
      cases h
      simpa using hx

theorem stripUnderscores_head_ne (l : List Char) (c : Char) (r : List Char)
    (h : stripUnderscores l = c :: r) : (c == '_') = false := by
  have h2 : (l.dropWhile (fun c => c == '_')).reverse.dropWhile (fun c => c == '_')
      = r.reverse ++ [c] := by
    have h4 := congrArg List.reverse h
    simpa [stripUnderscores] using h4
  obtain ⟨t, ht⟩ := List.dropWhile_suffix (l := (l.dropWhile (fun c => c == '_')).reverse)
    (fun c => c == '_')
  rw [h2] at ht
  have h3 : l.dropWhile (fun c => c == '_') = c :: (r ++ t.reverse) := by
    have h5 := congrArg List.reverse ht
    simp [List.reverse_append] at h5
    exact h5.symm
  exact dropWhile_head_false _ l c _ h3

theorem validChar_toLower (d : Char) (hd : isAsciiAlnum d = true ∨ d = '_') :
    validChar (toLowerAscii d) = true := by
  have ht := toNat_toLowerAscii d
  rcases hd with hd | hd
  · simp only [isAsciiAlnum, Bool.or_eq_true, Bool.and_eq_true, decide_eq_true_eq] at hd
    simp only [validChar, Bool.or_eq_true, Bool.and_eq_true, decide_eq_true_eq]
    by_cases h : 65 ≤ d.toNat ∧ d.toNat ≤ 90
    · rw [if_pos h] at ht; omega
    · rw [if_neg h] at ht; omega
  · subst hd
    have h95 : ('_' : Char).toNat = 95 := by decide
    simp only [validChar, Bool.or_eq_true, Bool.and_eq_true, decide_eq_true_eq]
    rw [if_neg (by omega : ¬(65 ≤ ('_' : Char).toNat ∧ ('_' : Char).toNat ≤ 90))] at ht
    omega

theorem snakeify_valid (t : String) : validIdent (snakeify t) = true := by
  have hmidchars : ∀ c ∈ stripUnderscores (collapseAux (t.data.map replQuotes) false),
      isAsciiAlnum c = true ∨ c = '_' :=
    fun c hc => collapseAux_chars _ false c (stripUnderscores_subset _ c hc)
  show validIdentData (snakeifyData t.data) = true
  unfold snakeifyData
  cases hmid : stripUnderscores (collapseAux (t.data.map replQuotes) false) with
  | nil => decide
  | cons c r =>
    have hc := hmidchars c (hmid ▸ List.mem_cons_self c r)
    have hcne : (c == '_') = false := stripUnderscores_head_ne _ c r hmid
    have hcal : isAsciiAlnum c = true := by
      rcases hc with h | h
      · exact h
      · subst h; simp at hcne
    have htail : ∀ x ∈ (r.map toLowerAscii), validChar x = true := by
      intro x hx
      obtain ⟨d, hd, rfl⟩ := List.mem_map.mp hx
      exact validChar_toLower d (hmidchars d (hmid ▸ List.mem_cons_of_mem c hd))
    simp only [List.map_cons]
    rw [if_neg (by simp : ¬(toLowerAscii c :: r.map toLowerAscii = []))]
    simp only [List.head?_cons, Option.all_some]
    have halnum : ((65 ≤ c.toNat ∧ c.toNat ≤ 90) ∨ (97 ≤ c.toNat ∧ c.toNat ≤ 122))
        ∨ (48 ≤ c.toNat ∧ c.toNat ≤ 57) := by
      simpa [isAsciiAlnum, Bool.or_eq_true, Bool.and_eq_true, decide_eq_true_eq] using hcal
    have ht := toNat_toLowerAscii c
    by_cases hal : isAsciiAlpha (toLowerAscii c) = true
    · rw [if_pos hal]
      simp only [isAsciiAlpha, Bool.or_eq_true, Bool.and_eq_true, decide_eq_true_eq] at hal
      simp only [validIdentData, Bool.and_eq_true, decide_eq_true_eq, List.all_eq_true]
      constructor
      · by_cases h : 65 ≤ c.toNat ∧ c.toNat ≤ 90
        · rw [if_pos h] at ht; omega
        · rw [if_neg h] at ht; omega
      · exact htail
    · rw [if_neg hal]
      simp only [validIdentData, List.cons_append, List.nil_append]
      simp only [Bool.and_eq_true, decide_eq_true_eq, List.all_eq_true]
      refine ⟨by decide, ?_⟩
      intro x hx
      simp only [List.mem_cons] at hx
      rcases hx with rfl | rfl | rfl | rfl | rfl | rfl | hx
      · decide
      · decide
      · decide
      · decide
      · decide
      · simp only [validChar, Bool.or_eq_true, Bool.and_eq_true, decide_eq_true_eq]
        rcases halnum with (h | h) | h
        · rw [if_pos (by omega)] at ht; omega
        · rw [if_neg (by omega)] at ht; omega
        · rw [if_neg (by omega)] at ht; omega
      · exact htail x hx

theorem validIdent_render (b : String) (hb : validIdent b = true) (n : Nat) :
    validIdent (render b n) = true := by
  unfold render
  by_cases h : 1 < n
  · rw [if_pos h]
    unfold validIdent at hb ⊢
    rw [String.data_append, String.data_append]
    cases hd : b.data with
    | nil => rw [hd] at hb; exact absurd hb (by decide)
    | cons c rest =>
      rw [hd] at hb
      simp only [validIdentData, Bool.and_eq_true, List.all_eq_true] at hb
      simp only [List.cons_append, validIdentData, Bool.and_eq_true, List.all_eq_true]
      refine ⟨hb.1, ?_⟩
      intro x hx
      rw [List.mem_append] at hx
      rcases hx with hx | hx
      · rw [List.mem_append] at hx
        rcases hx with hx | hx
        · exact hb.2 x hx
        · have hxe : x = '_' := by simpa using hx
          subst hxe; decide
      · have := repr_digits n x hx
        simp only [validChar, Bool.or_eq_true, Bool.and_eq_true, decide_eq_true_eq]
        omega
  · rw [if_neg h]; exact hb

theorem assignIds_fn_shape : ∀ (l : List (String × Nat)) (seen : String → Nat) (s : Stub),
    s ∈ assignIds l seen → ∃ t n, s.fn = render (snakeify t) n := by
  intro l
  induction l with
  | nil => intro seen s hs; simp [assignIds] at hs
  | cons e rest ih =>
    intro seen s hs
    obtain ⟨t, ln⟩ := e
    rcases List.mem_cons.mp hs with h | h
    · exact ⟨t, seen (snakeify t) + 1, by rw [h]⟩
    · exact ih _ s h

/-! ### Extraction and filter lemmas -/

theorem scanFrom_eq_filter : ∀ (n : Nat) (l : List String),
    scanFrom n l = (rawScanFrom n l).filter (fun e => decide (e.1 ∉ PORTED)) := by
  intro n l
  induction l generalizing n with
  | nil => rfl
  | cons line rest ih =>
    cases hm : extractTitle line with
    | none =>
      simp only [scanFrom, rawScanFrom, hm]
      exact ih (n + 1)
    | some t =>
      simp only [scanFrom, rawScanFrom, hm]
      by_cases hp : t ∈ PORTED
      · rw [if_pos hp, List.filter_cons, if_neg (by simpa using hp)]
        exact ih (n + 1)
      · rw [if_neg hp, List.filter_cons, if_pos (by simpa using hp)]
        rw [ih (n + 1)]

theorem scanFrom_mem_source : ∀ (l : List String) (n : Nat) (e : String × Nat),
    e ∈ scanFrom n l →
    n ≤ e.2 ∧ ∃ line, l[e.2 - n]? = some line ∧ extractTitle line = some e.1 := by
  intro l
  induction l with
  | nil => intro n e he; simp [scanFrom] at he
  | cons line rest ih =>
    intro n e he
    have hstep : e ∈ scanFrom (n + 1) rest →
        n ≤ e.2 ∧ ∃ li, (line :: rest)[e.2 - n]? = some li ∧ extractTitle li = some e.1 := by
      intro h
      obtain ⟨hle, li, hg, hx⟩ := ih (n + 1) e h
      refine ⟨by omega, li, ?_, hx⟩
      have hidx : e.2 - n = (e.2 - (n + 1)) + 1 := by omega
      rw [hidx, List.getElem?_cons_succ]
      exact hg
    cases hm : extractTitle line with
    | none =>
      simp only [scanFrom, hm] at he
      exact hstep he
    | some t =>
      simp only [scanFrom, hm] at he
      by_cases hp : t ∈ PORTED
      · rw [if_pos hp] at he; exact hstep he
      · rw [if_neg hp] at he
        rcases List.mem_cons.mp he with h | h
        · subst h
          exact ⟨le_refl n, line, by simp, hm⟩
        · exact hstep h

theorem scanFrom_lineno_lb (l : List String) (n : Nat) (e : String × Nat)
    (he : e ∈ scanFrom n l) : n ≤ e.2 :=
  (scanFrom_mem_source l n e he).1

theorem scanFrom_pairwise : ∀ (l : List String) (n : Nat),
    ((scanFrom n l).map (fun e => e.2)).Pairwise (· < ·) := by
  intro l
  induction l with
  | nil => intro n; simp [scanFrom]
  | cons line rest ih =>
    intro n
    cases hm : extractTitle line with
    | none =>
      simp only [scanFrom, hm]
      exact ih (n + 1)
    | some t =>
      simp only [scanFrom, hm]
      by_cases hp : t ∈ PORTED
      · rw [if_pos hp]; exact ih (n + 1)
      · rw [if_neg hp]
        simp only [List.map_cons]
        rw [List.pairwise_cons]
        refine ⟨?_, ih (n + 1)⟩
        intro y hy
        obtain ⟨e, he, rfl⟩ := List.mem_map.mp hy
        have := scanFrom_lineno_lb rest (n + 1) e he
        omega

theorem stubs_map_pairs (input : List String) :
    (stubs input).map (fun s => (s.title, s.lineno)) = describes input :=
  assignIds_map (describes input) (fun _ => 0)

theorem stubs_lineno (input : List String) :
    (stubs input).map (fun s => s.lineno) = (describes input).map (fun e => e.2) := by
  have h := congrArg (List.map Prod.snd) (stubs_map_pairs input)
  simpa [List.map_map, Function.comp] using h

/-- `render b` is injective-enough: distinct occurrence counts (at least one of
them being an actual occurrence, i.e. `1 ≤ m`) give distinct identifiers. -/
theorem render_ne_of_lt (b : String) {m n : Nat} (h1 : 1 ≤ m) (h2 : m < n) :
    render b m ≠ render b n := by
  intro he
  unfold render at he
  by_cases hm : 1 < m
  · rw [if_pos hm, if_pos (by omega)] at he
    have := (append_repr_inj he).2
    omega
  · rw [if_neg hm, if_pos (by omega)] at he
    have hlen := congrArg String.length he
    rw [String.length_append, String.length_append] at hlen
    have h1 : ("_" : String).length = 1 := rfl
    omega

example : snakeify "A weird, Title!" = "a_weird_title" := by decide

example : snakeify "3D parser" = "katex_3d_parser" := by decide

example : snakeify "\"\"" = "unknown" := by decide

example : extractTitle "describe(\"\")" = none := by decide

example : extractTitle "describe(\"abc" = some "abc" := by decide

example :
    (stubs ["describe(\"foo 2\", ...)", "describe(\"foo\", ...)",
      "describe(\"foo\", ...)"]).map (fun s => s.fn) = ["foo_2", "foo", "foo_2"] := by
  decide

/-! ### Claim theorems -/

/-- C2: every identifier generated in a run (the function name placed in an
emitted stub, after collision suffixing) matches `^[a-z][a-z0-9_]*$`: it is
non-empty, begins with a lowercase ASCII letter, and contains only lowercase
ASCII letters, ASCII digits, and underscores. -/
theorem c2_identifier_valid (input : List String) (s : Stub) (hs : s ∈ stubs input) :
    validIdent s.fn = true := by
  obtain ⟨t, n, hfn⟩ := assignIds_fn_shape (describes input) (fun _ => 0) s hs
  rw [hfn]
  exact validIdent_render _ (snakeify_valid t) n

theorem c2_identifier_valid_witness :
    (Stub.mk "foo" 1 "foo") ∈ stubs collideTwo ∧
      validIdent (Stub.mk "foo" 1 "foo").fn = true :=
  ⟨by decide, c2_identifier_valid collideTwo (Stub.mk "foo" 1 "foo") (by decide)⟩

/-- C3: the i-th stub keeps the title and line number of the i-th surviving
entry, and its identifier is `render base k` where `k` is the 1-based
occurrence count of its base identifier among the first `i + 1` surviving
entries: the base itself for `k = 1`, and `base_k` for `k ≥ 2`. -/
theorem c3_collision_suffix (input : List String) (i : Nat)
    (hi : i < (describes input).length) :
    ∃ e, (describes input)[i]? = some e ∧
      (stubs input)[i]? = some
        { title := e.1, lineno := e.2,
          fn := render (snakeify e.1)
            (((describes input).take (i + 1)).countP
              (fun x => snakeify x.1 == snakeify e.1)) } := by
  have hi2 : i < (stubs input).length := by
    show i < (assignIds (describes input) (fun _ => 0)).length
    rw [assignIds_length]; exact hi
  refine ⟨(describes input)[i], List.getElem?_eq_getElem hi, ?_⟩
  rw [List.getElem?_eq_getElem hi2]
  have h := assignIds_getElem (describes input) (fun _ => 0) i hi hi2
  simp only [Nat.zero_add] at h
  exact congrArg some h

theorem c3_collision_suffix_witness :
    1 < (describes collideTwo).length ∧
      ∃ e, (describes collideTwo)[1]? = some e ∧
        (stubs collideTwo)[1]? = some
          { title := e.1, lineno := e.2,
            fn := render (snakeify e.1)
              (((describes collideTwo).take (1 + 1)).countP
                (fun x => snakeify x.1 == snakeify e.1)) } :=
  ⟨by decide, c3_collision_suffix collideTwo 1 (by decide)⟩

/-- C4: the surviving entries are exactly the extracted entries whose title is
not a member of `PORTED` (exact string equality, order preserved), and each
surviving entry yields exactly one stub carrying its title and line number. -/
theorem c4_filter_correct (input : List String) :
    describes input = (rawScanFrom 1 input).filter (fun e => decide (e.1 ∉ PORTED)) ∧
    (stubs input).map (fun s => (s.title, s.lineno)) = describes input :=
  ⟨scanFrom_eq_filter 1 input, stubs_map_pairs input⟩

/-- C5: every generated function block contains the traceability comment with
the exact original title and the exact 1-based line number, and that line
number points at a line of the input whose extraction matched that title. -/
theorem c5_traceability (input : List String) (s : Stub) (hs : s ∈ stubs input) :
    commentLine s.title s.lineno ∈ genLines input ∧
    1 ≤ s.lineno ∧
    ∃ line, input[s.lineno - 1]? = some line ∧ extractTitle line = some s.title := by
  refine ⟨?_, ?_⟩
  · unfold genLines
    refine List.mem_append.mpr (Or.inr ?_)
    rw [List.mem_flatMap]
    exact ⟨s, hs, by simp [blockLines]⟩
  · have hpair : (s.title, s.lineno) ∈ describes input := by
      rw [← stubs_map_pairs input]
      exact List.mem_map.mpr ⟨s, hs, rfl⟩
    obtain ⟨h1, line, hg, hx⟩ := scanFrom_mem_source input 1 (s.title, s.lineno) hpair
    exact ⟨h1, line, hg, hx⟩

theorem c5_traceability_witness :
    (Stub.mk "foo" 1 "foo") ∈ stubs collideTwo ∧
      (commentLine (Stub.mk "foo" 1 "foo").title (Stub.mk "foo" 1 "foo").lineno
          ∈ genLines collideTwo ∧
        1 ≤ (Stub.mk "foo" 1 "foo").lineno ∧
        ∃ line, collideTwo[(Stub.mk "foo" 1 "foo").lineno - 1]? = some line ∧
          extractTitle line = some (Stub.mk "foo" 1 "foo").title) :=
  ⟨by decide, c5_traceability collideTwo (Stub.mk "foo" 1 "foo") (by decide)⟩

/-- C7: stubs, and hence the emitted function blocks, appear in strictly
increasing order of their source line numbers, and the document is the header
followed by the blocks in stub order. -/
theorem c7_stub_order (input : List String) :
    ((stubs input).map (fun s => s.lineno)).Pairwise (· < ·) ∧
    genLines input = headerLines ++ (stubs input).flatMap blockLines := by
  refine ⟨?_, rfl⟩
  rw [stubs_lineno]
  exact scanFrom_pairwise input 1

/-- C8: if reading the input file fails, the run terminates with that failure
and no output document is produced. -/
theorem c8_input_unavailable (e : String) :
    runWith (Except.error e) = Except.error e ∧
      ∀ out, runWith (Except.error e) ≠ Except.ok out :=
  ⟨rfl, fun _ h => Except.noConfusion h⟩

/-- C9: the generator is deterministic: runs on equal input file contents
produce byte-identical output documents. -/
theorem c9_deterministic (input1 input2 : List String) (h : input1 = input2) :
    output input1 = output input2 :=
  congrArg output h

theorem c9_deterministic_witness : output collideTwo = output collideTwo :=
  c9_deterministic collideTwo collideTwo rfl

/-- C6: Scenario B: in the input whose line 42 is
`describe("A weird, Title!", ...)`, the surviving title "A weird, Title!"
normalises to exactly `a_weird_title` (backslashes and quotes to spaces,
maximal non-alphanumeric runs to single underscores, edge underscores
trimmed, lowercased), and the traceability comment cites line 42. -/
theorem c6_weird_title :
    snakeify "A weird, Title!" = "a_weird_title" ∧
    stubs scenarioB = [{ title := "A weird, Title!", lineno := 42, fn := "a_weird_title" }] ∧
    commentLine "A weird, Title!" 42 ∈ genLines scenarioB :=
  ⟨by decide, by decide, by decide⟩

/-- C10: a line yields an extracted title `t` exactly when it begins with the
literal characters `describe("` followed by the non-empty maximal run `t` of
non-double-quote characters; the remainder after `t` is empty or starts with
a double quote, `t` is non-empty and quote-free, and no closing quote or
parenthesis is required. -/
theorem c10_extract_characterisation (line : String) (t : String) :
    extractTitle line = some t ↔
      ∃ rest, line.data = "describe(\"".data ++ (t.data ++ rest) ∧ t.data ≠ [] ∧
        (∀ c ∈ t.data, c ≠ '"') ∧ (rest = [] ∨ ∃ r2, rest = '"' :: r2) := by
  obtain ⟨td⟩ := t
  constructor
  · intro h
    unfold extractTitle at h
    by_cases hc : line.data.take 10 = "describe(\"".data
    · rw [if_pos hc] at h
      by_cases hn : (line.data.drop 10).takeWhile (fun c => !(c == '"')) = []
      · rw [if_pos hn] at h
        exact absurd h (by simp)
      · rw [if_neg hn] at h
        have htd : td = (line.data.drop 10).takeWhile (fun c => !(c == '"')) := by
          have h2 := Option.some.inj h
          exact (congrArg String.data h2).symm
        refine ⟨(line.data.drop 10).dropWhile (fun c => !(c == '"')), ?_, ?_, ?_, ?_⟩
        · rw [htd, List.takeWhile_append_dropWhile, ← hc, List.take_append_drop]
        · rw [htd]; exact hn
        · intro c hcm
          rw [htd] at hcm
          have := List.mem_takeWhile_imp hcm
          simpa using this
        · cases hd : (line.data.drop 10).dropWhile (fun c => !(c == '"')) with
          | nil => exact Or.inl rfl
          | cons x r2 =>
            have hx := dropWhile_head_false _ _ x r2 hd
            have hxq : x = '"' := by simpa using hx
            exact Or.inr ⟨r2, by rw [hxq]⟩
    · rw [if_neg hc] at h
      exact absurd h (by simp)
  · rintro ⟨rest, hline, hne, hq, hr⟩
    have hlen : ("describe(\"".data).length = 10 := rfl
    have htake : line.data.take 10 = "describe(\"".data := by
      rw [hline, ← hlen, List.take_left]
    have hdrop : line.data.drop 10 = td ++ rest := by
      rw [hline, ← hlen, List.drop_left]
    have hall : ∀ c ∈ td, (fun c => !(c == '"')) c = true := by
      intro c hcm
      simpa using hq c hcm
    have htw : (td ++ rest).takeWhile (fun c => !(c == '"')) = td := by
      rcases hr with rfl | ⟨r2, rfl⟩
      · rw [List.append_nil]
        exact takeWhile_all _ td hall
      · exact takeWhile_append_cons _ td '"' r2 hall (by decide)
    unfold extractTitle
    rw [if_pos htake, hdrop, htw, if_neg hne]

/-- C1 as stated is false on the code: with surviving titles "foo 2", "foo",
"foo" the generated identifiers are `foo_2`, `foo`, `foo_2`: the first and the
third coincide, so the identifiers of one run are not pairwise distinct. -/
theorem c1_counterexample :
    (stubs collideBad).map (fun s => s.fn) = ["foo_2", "foo", "foo_2"] ∧
    ¬ ((stubs collideBad).map (fun s => s.fn)).Pairwise (fun a b => a ≠ b) := by
  have hmap : (stubs collideBad).map (fun s => s.fn) = ["foo_2", "foo", "foo_2"] := by decide
  refine ⟨hmap, ?_⟩
  intro h
  rw [hmap] at h
  rcases List.pairwise_cons.mp h with ⟨h1, -⟩
  exact h1 "foo_2" (by simp) rfl

/-- C1 (amended): all identifiers of a single run are pairwise distinct —
also when distinct input titles collide after normalisation — provided no
base identifier of the run equals another base identifier of the run with a
decimal occurrence suffix `_N` (`2 ≤ N ≤` number of surviving entries)
appended.  (The unconditional claim fails: see the counterexample.) -/
theorem c1_identifiers_distinct (input : List String)
    (hnc : ∀ n, n < (describes input).length + 1 → 2 ≤ n →
      ∀ b ∈ basesOf input, ∀ c ∈ basesOf input, b ≠ c ++ "_" ++ Nat.repr n) :
    ((stubs input).map (fun s => s.fn)).Pairwise (fun a b => a ≠ b) := by
  rw [List.pairwise_iff_getElem]
  intro i j hi hj hij
  simp only [List.length_map] at hi hj
  have hleq : (stubs input).length = (describes input).length := by
    show (assignIds (describes input) (fun _ => 0)).length = _
    exact assignIds_length _ _
  have hdi : i < (describes input).length := hleq ▸ hi
  have hdj : j < (describes input).length := hleq ▸ hj
  simp only [List.getElem_map]
  have hgi := assignIds_getElem (describes input) (fun _ => 0) i hdi hi
  have hgj := assignIds_getElem (describes input) (fun _ => 0) j hdj hj
  simp only [Nat.zero_add] at hgi hgj
  have hfi : (stubs input)[i].fn
      = render (snakeify ((describes input)[i]).1)
          (((describes input).take (i + 1)).countP
            (fun x => snakeify x.1 == snakeify ((describes input)[i]).1)) :=
    congrArg Stub.fn hgi
  have hfj : (stubs input)[j].fn
      = render (snakeify ((describes input)[j]).1)
          (((describes input).take (j + 1)).countP
            (fun x => snakeify x.1 == snakeify ((describes input)[j]).1)) :=
    congrArg Stub.fn hgj
  rw [hfi, hfj]
  have hk1pos : 1 ≤ ((describes input).take (i + 1)).countP
      (fun x => snakeify x.1 == snakeify ((describes input)[i]).1) :=
    countP_take_self _ i hdi _ (by simp)
  have hk2pos : 1 ≤ ((describes input).take (j + 1)).countP
      (fun x => snakeify x.1 == snakeify ((describes input)[j]).1) :=
    countP_take_self _ j hdj _ (by simp)
  have hk1le : ((describes input).take (i + 1)).countP
      (fun x => snakeify x.1 == snakeify ((describes input)[i]).1)
      ≤ (describes input).length := by
    refine le_trans (List.countP_le_length _) ?_
    simp [List.length_take]
  have hk2le : ((describes input).take (j + 1)).countP
      (fun x => snakeify x.1 == snakeify ((describes input)[j]).1)
      ≤ (describes input).length := by
    refine le_trans (List.countP_le_length _) ?_
    simp [List.length_take]
  have hmem1 : snakeify ((describes input)[i]).1 ∈ basesOf input :=
    List.mem_map.mpr ⟨(describes input)[i], List.getElem_mem hdi, rfl⟩
  have hmem2 : snakeify ((describes input)[j]).1 ∈ basesOf input :=
    List.mem_map.mpr ⟨(describes input)[j], List.getElem_mem hdj, rfl⟩
  by_cases hbb : snakeify ((describes input)[i]).1 = snakeify ((describes input)[j]).1
  · have hpred : (fun x => snakeify x.1 == snakeify ((describes input)[i]).1)
        ((describes input)[j]) = true := by
      simp only [hbb]
      exact beq_self_eq_true _
    have hk12 := countP_take_strict (describes input) i j hij hdj
      (fun x => snakeify x.1 == snakeify ((describes input)[i]).1) hpred
    rw [hbb] at hk12
    rw [hbb]
    exact render_ne_of_lt _ (hbb ▸ hk1pos) hk12
  · by_cases h1 : 1 < ((describes input).take (i + 1)).countP
        (fun x => snakeify x.1 == snakeify ((describes input)[i]).1)
        <;> by_cases h2 : 1 < ((describes input).take (j + 1)).countP
        (fun x => snakeify x.1 == snakeify ((describes input)[j]).1)
    · intro he
      unfold render at he
      rw [if_pos h1, if_pos h2] at he
      exact hbb (append_repr_inj he).1
    · intro he
      unfold render at he
      rw [if_pos h1, if_neg h2] at he
      exact hnc _ (by omega) (by omega) _ hmem2 _ hmem1 he.symm
    · intro he
      unfold render at he
      rw [if_neg h1, if_pos h2] at he
      exact hnc _ (by omega) (by omega) _ hmem1 _ hmem2 he
    · intro he
      unfold render at he
      rw [if_neg h1, if_neg h2] at he
      exact hbb he

theorem c1_identifiers_distinct_witness :
    (∀ n, n < (describes collideTwo).length + 1 → 2 ≤ n →
      ∀ b ∈ basesOf collideTwo, ∀ c ∈ basesOf collideTwo,
        b ≠ c ++ "_" ++ Nat.repr n) ∧
    ((stubs collideTwo).map (fun s => s.fn)).Pairwise (fun a b => a ≠ b) :=
  ⟨by decide, c1_identifiers_distinct collideTwo (by decide)⟩

end KatexTodos
